import Mathlib

/-!
Verification of the core of `fuzzyrusty` (`src/utils.rs`) against its
specification.

The embedding works over `List Char`: a Rust `&str` is modelled as its
sequence of Unicode scalar values, which is exactly the addressing scheme
the source uses for every public index (`slice_utf8` converts between byte
offsets and scalar offsets internally; byte-level substring search via
`str::match_indices` can only ever match at scalar boundaries because UTF-8
is self-synchronizing, so the char-level model of the search is faithful).

Rust `std` character primitives used by `full_process` are modelled
concretely: exact on the ASCII range, and by explicit tables for the
non-ASCII code points that occur in this development (values taken from the
Unicode character database, which is what Rust's `char::is_alphanumeric`,
`char::is_whitespace` and `str::to_lowercase` implement).  No theorem below
depends on the default behaviour chosen for untabulated non-ASCII points.
-/

namespace Fuzzy

/-- Rust `char::is_ascii`: code point at most 0x7F. -/
def char_is_ascii (c : Char) : Bool := c.toNat ≤ 127

/-- Rust `char::is_alphanumeric` (Unicode `Alphabetic ∪ Nd ∪ Nl ∪ No`).
Exact on ASCII; on non-ASCII input only the code points used in this
development are tabulated ('ሴ' U+1234 and '耀' U+8000 are letters (Lo),
'Ç' U+00C7 (Lu), 'ç' U+00E7 (Ll) and 'İ' U+0130 (Lu) are letters; the
remaining points appearing below — '¬' U+00AC (Sm), '€' U+20AC (Sc) and
U+0307 (Mn, combining dot above) — are not alphanumeric in Unicode, matching
the default). -/
def char_is_alphanumeric (c : Char) : Bool :=
  if c.toNat ≤ 127 then
    decide ((48 ≤ c.toNat ∧ c.toNat ≤ 57) ∨ (65 ≤ c.toNat ∧ c.toNat ≤ 90) ∨
      (97 ≤ c.toNat ∧ c.toNat ≤ 122))
  else
    decide (c = 'ሴ' ∨ c = '耀' ∨ c = 'Ç' ∨ c = 'ç' ∨ c = 'İ')

/-- Rust `char::is_whitespace` (Unicode `White_Space`).  The full Unicode
`White_Space` list is short enough to tabulate exactly. -/
def char_is_whitespace (c : Char) : Bool :=
  decide (c.toNat = 32 ∨ (9 ≤ c.toNat ∧ c.toNat ≤ 13)) ||
  [0x85, 0xA0, 0x1680, 0x2000, 0x2001, 0x2002, 0x2003, 0x2004, 0x2005,
   0x2006, 0x2007, 0x2008, 0x2009, 0x200A, 0x2028, 0x2029, 0x202F, 0x205F,
   0x3000].contains c.toNat

/-- One character's contribution to Rust `str::to_lowercase`.  Exact on
ASCII ('A'..'Z' map to 'a'..'z', everything else is fixed); of the non-ASCII
points used below, 'Ç' lowercases to 'ç' and 'İ' (U+0130) expands to
"i" ++ U+0307 per `SpecialCasing.txt` — exactly what Rust produces.  Other
non-ASCII points are modelled as fixed; no theorem depends on them.
(`str::to_lowercase` also implements the Greek final-sigma context rule; no
string in this development contains 'Σ', so the character-wise model is
faithful here.) -/
def char_to_lowercase (c : Char) : List Char :=
  if 65 ≤ c.toNat ∧ c.toNat ≤ 90 then [Char.ofNat (c.toNat + 32)]
  else if c = 'Ç' then ['ç']
  else if c = 'İ' then ['i', '̇']
  else [c]

/-- Rust `str::to_lowercase`, character-wise (see `char_to_lowercase`). -/
def str_to_lowercase (s : List Char) : List Char :=
  s.flatMap char_to_lowercase

/-- Rust `str::trim`: strip leading and trailing `char::is_whitespace`. -/
def str_trim (s : List Char) : List Char :=
  ((s.dropWhile char_is_whitespace).reverse.dropWhile char_is_whitespace).reverse

/-- `full_process` from `src/utils.rs`:
1. if `force_ascii`, remove non-ASCII characters;
2. replace all non-alphanumeric characters with a space;
3. lowercase; 4. trim whitespace. -/
def full_process (s : List Char) (force_ascii : Bool) : List Char :=
  let r1 := if force_ascii then s.filter char_is_ascii else s
  let r2 := r1.map (fun c => if char_is_alphanumeric c then c else ' ')
  str_trim (str_to_lowercase r2)

/-- `validate_string` from `src/utils.rs`: the string is non-empty. -/
def validate_string (s : List Char) : Bool := !s.isEmpty

/-- The scalar-value slice `s[low..high)`; this is what `slice_utf8`
computes when its preconditions hold. -/
def sliceChars (s : List Char) (low high : Nat) : List Char :=
  (s.drop low).take (high - low)

/-- Model of `slice_utf8` from `src/utils.rs`.  `dbga` says whether the
crate is compiled with debug assertions (`debug_assert!` active); `none`
models a panic.  The release-mode (`dbga = false`) behaviour mirrors the
byte-walking implementation faithfully: with `low = high` it returns `""`
unconditionally; otherwise the `find` for the start character panics via
`.expect` when `low ≥ char_count`; the `skip_while`/`next` search for the
end position finds character `high` only when `low < high ≤ char_count`
(falling back to the total length otherwise), so an out-of-range or
inverted `high` silently yields the suffix `s[low..]`. -/
def slice_utf8 (dbga : Bool) (string : List Char) (low high : Nat) :
    Option (List Char) :=
  let char_count := string.length
  if dbga ∧ (low > high ∨ high > char_count) then none
  else if low = high then some []
  else if low < char_count then
    some ((string.drop low).take
      (if low < high ∧ high ≤ char_count then high - low else char_count - low))
  else none

/-- First index `p` (in character units) at which `needle` occurs in the
haystack, i.e. the model of `str::match_indices(needle).next()` (translated
back from bytes to characters, which is what `find_longest_match` does with
its `byte_to_char_map`). -/
def strFind (needle : List Char) : List Char → Option Nat
  | [] => if needle.isPrefixOf ([] : List Char) then some 0 else none
  | c :: rest =>
    if needle.isPrefixOf (c :: rest) then some 0
    else (strFind needle rest).map (· + 1)

/-- Inner loop of `find_longest_match`: `for start in s0..s0+fuel` running
`h start`, returning the first hit. -/
def startLoopFrom (h : Nat → Option α) : Nat → Nat → Option α
  | _, 0 => none
  | s, fuel + 1 =>
    match h s with
    | some r => some r
    | none => startLoopFrom h (s + 1) fuel

/-- Outer loop of `find_longest_match`: `for size in (1..n+1).rev()` running
`g size`, returning the first hit. -/
def sizeLoop (g : Nat → Option α) : Nat → Option α
  | 0 => none
  | n + 1 =>
    match g (n + 1) with
    | some r => some r
    | none => sizeLoop g n

/-- Body of the inner loop of `find_longest_match`: slice the candidate
substring of `shorter` at this `start` and `size` and look for its first
occurrence in `longsub`; on a hit return
`(low1 + start, low2 + byte_to_char_map[startb], matchstr.chars().count())`,
where the match's length equals the candidate substring's length. -/
def flmTry (shorter longsub : List Char) (low1 low2 size start : Nat) :
    Option (Nat × Nat × Nat) :=
  let substr := sliceChars shorter (low1 + start) (low1 + start + size)
  (strFind substr longsub).map (fun p => (low1 + start, low2 + p, substr.length))

/-- `find_longest_match` from `src/utils.rs`: scan candidate lengths from
the whole window downward, and for each length the start offsets
left-to-right, returning the first occurrence found; `(low1, low2, 0)` if
nothing of length ≥ 1 matches.  The slices taken here are `slice_utf8`
under its (debug-asserted) preconditions, i.e. `sliceChars`. -/
def find_longest_match (shorter longer : List Char)
    (low1 high1 low2 high2 : Nat) : Nat × Nat × Nat :=
  let longsub := sliceChars longer low2 high2
  let slen := high1 - low1
  match sizeLoop (fun size =>
      startLoopFrom (flmTry shorter longsub low1 low2 size) 0 (slen - size + 1))
      slen with
  | some r => r
  | none => (low1, low2, 0)

/-- A work-list window `(low1, high1, low2, high2)`. -/
abbrev Win := Nat × Nat × Nat × Nat

/-- A match triple `(i, j, k)`. -/
abbrev Blk := Nat × Nat × Nat

/-- Fuel-counting potential of a work list: each window `(l1, h1, _, _)`
contributes `1 + 2 * (h1 - l1)`.  Each iteration of the `while let` loop in
`get_matching_blocks` strictly decreases this quantity (popping a window
costs `1 + 2 * s`, and the sub-windows pushed when `k ≠ 0` carry at most
`2 + 2 * (s - k) ≤ 2 * s` of it), so it bounds the number of iterations. -/
def phi (q : List Win) : Nat := (q.map (fun w => 1 + 2 * (w.2.1 - w.1))).sum

/-- The `while let Some(...) = queue.pop()` loop of `get_matching_blocks`,
with an explicit fuel argument (structural recursion; `phi q` fuel is
enough, see `gmbLoopF_fuel_irrel`).  The queue is a stack with its top at
the head: `queue.pop()` takes the head, and the source's two `queue.push`
calls (first the region before the match, then the region after) appear
here in reverse order as conses so that the region after the match is on
top, exactly as in the source. -/
def gmbLoopF (shorter longer : List Char) :
    Nat → List Win → List Blk → List Blk
  | 0, _, acc => acc
  | _ + 1, [], acc => acc
  | fuel + 1, (low1, high1, low2, high2) :: rest, acc =>
    let r := find_longest_match shorter longer low1 high1 low2 high2
    let i := r.1
    let j := r.2.1
    let k := r.2.2
    if k ≠ 0 then
      let rest1 := if low1 < i ∧ low2 < j then (low1, i, low2, j) :: rest else rest
      let rest2 :=
        if i + k < high1 ∧ j + k < high2 then (i + k, high1, j + k, high2) :: rest1
        else rest1
      gmbLoopF shorter longer fuel rest2 (acc ++ [(i, j, k)])
    else gmbLoopF shorter longer fuel rest acc

/-- The worklist loop of `get_matching_blocks`, run with sufficient fuel. -/
def gmbLoop (shorter longer : List Char) (q : List Win) (acc : List Blk) :
    List Blk :=
  gmbLoopF shorter longer (phi q) q acc

/-- Lexicographic order on `(usize, usize, usize)`, the order used by
`matching_blocks.sort_unstable()`.  It is total and antisymmetric, so every
correct sort (stable or not) produces the same list; we model the sort with
`List.insertionSort`. -/
def tripleLE (x y : Blk) : Prop :=
  x.1 < y.1 ∨ (x.1 = y.1 ∧ (x.2.1 < y.2.1 ∨ (x.2.1 = y.2.1 ∧ x.2.2 ≤ y.2.2)))

instance : DecidableRel tripleLE := fun x y => by
  unfold tripleLE; infer_instance

instance : IsTotal Blk tripleLE := ⟨by intro a b; unfold tripleLE; omega⟩

instance : IsTrans Blk tripleLE := ⟨by intro a b c; unfold tripleLE; omega⟩

/-- The adjacency-merging pass of `get_matching_blocks`: the running triple
`(i1, j1, k1)` absorbs the next sorted triple when it starts exactly where
the running one ends in both sequences, and is emitted to `non_adjacent`
(when non-trivial) otherwise; the final running triple is flushed after the
loop. -/
def mergeLoop : Blk → List Blk → List Blk → List Blk
  | (i1, j1, k1), [], acc => if k1 ≠ 0 then acc ++ [(i1, j1, k1)] else acc
  | (i1, j1, k1), (i2, j2, k2) :: rest, acc =>
    if i1 + k1 = i2 ∧ j1 + k1 = j2 then mergeLoop (i1, j1, k1 + k2) rest acc
    else mergeLoop (i2, j2, k2) rest
      (if k1 ≠ 0 then acc ++ [(i1, j1, k1)] else acc)

/-- `get_matching_blocks` with the arguments already ordered so that
`shorter` is (weakly) the shorter one: worklist recursion, sort, adjacency
merge, sentinel. -/
def gmbCore (shorter longer : List Char) : List Blk :=
  let blocks := gmbLoop shorter longer [(0, shorter.length, 0, longer.length)] []
  let sorted := blocks.insertionSort tripleLE
  mergeLoop (0, 0, 0) sorted [] ++ [(shorter.length, longer.length, 0)]

/-- Swap the `i`/`j` components of a triple (used when the input arguments
were flipped). -/
def swapBlk (b : Blk) : Blk := (b.2.1, b.1, b.2.2)

/-- `get_matching_blocks` from `src/utils.rs`. -/
def get_matching_blocks (a b : List Char) : List Blk :=
  if a.length ≤ b.length then gmbCore a b
  else (gmbCore b a).map swapBlk

/-! ### Basic lemmas about the search primitives -/

theorem isPrefixOf_char_iff :
    ∀ (n h : List Char), n.isPrefixOf h = true ↔
      h.take n.length = n ∧ n.length ≤ h.length
  | [], h => by simp [List.isPrefixOf]
  | c :: n', [] => by simp [List.isPrefixOf]
  | c :: n', d :: h' => by
    simp only [List.isPrefixOf, Bool.and_eq_true, beq_iff_eq, List.length_cons,
      List.take_succ_cons, List.cons.injEq, isPrefixOf_char_iff n' h',
      Nat.succ_le_succ_iff]
    constructor
    · rintro ⟨rfl, h1, h2⟩; exact ⟨⟨rfl, h1⟩, h2⟩
    · rintro ⟨⟨rfl, h1⟩, h2⟩; exact ⟨rfl, h1, h2⟩

theorem strFind_some (needle : List Char) :
    ∀ (hay : List Char) (p : Nat), strFind needle hay = some p →
      needle.isPrefixOf (hay.drop p) = true ∧
      ∀ q, q < p → needle.isPrefixOf (hay.drop q) = false
  | [], p => by
    simp only [strFind]
    split
    · rename_i hpre
      intro h
      cases h
      exact ⟨by simpa using hpre, fun q hq => absurd hq (Nat.not_lt_zero q)⟩
    · intro h; cases h
  | c :: rest, p => by
    simp only [strFind]
    split
    · rename_i hpre
      intro h
      cases h
      exact ⟨hpre, fun q hq => absurd hq (Nat.not_lt_zero q)⟩
    · rename_i hpre
      intro h
      rw [Option.map_eq_some'] at h
      obtain ⟨p', hp', rfl⟩ := h
      obtain ⟨hocc, hmin⟩ := strFind_some needle rest p' hp'
      refine ⟨by simpa using hocc, ?_⟩
      intro q hq
      match q with
      | 0 => simpa using Bool.eq_false_iff.mpr hpre
      | q' + 1 =>
        simpa using hmin q' (by omega)

theorem strFind_none (needle : List Char) :
    ∀ (hay : List Char), strFind needle hay = none →
      ∀ q, needle.isPrefixOf (hay.drop q) = false
  | [] => by
    simp only [strFind]
    split
    · intro h; cases h
    · rename_i hpre
      intro _ q
      simpa using Bool.eq_false_iff.mpr hpre
  | c :: rest => by
    simp only [strFind]
    split
    · intro h; cases h
    · rename_i hpre
      intro h q
      rw [Option.map_eq_none'] at h
      match q with
      | 0 => simpa using Bool.eq_false_iff.mpr hpre
      | q' + 1 => simpa using strFind_none needle rest h q'

theorem startLoopFrom_some {α : Type} (h : Nat → Option α) :
    ∀ (fuel s : Nat) (r : α), startLoopFrom h s fuel = some r →
      ∃ t, s ≤ t ∧ t < s + fuel ∧ h t = some r ∧
        ∀ u, s ≤ u → u < t → h u = none
  | 0, s, r => by intro hh; cases hh
  | fuel + 1, s, r => by
    simp only [startLoopFrom]
    cases hs : h s with
    | some r' =>
      intro hh
      cases hh
      exact ⟨s, Nat.le_refl s, by omega, hs, fun u hu1 hu2 => by omega⟩
    | none =>
      intro hh
      obtain ⟨t, ht1, ht2, ht3, ht4⟩ := startLoopFrom_some h fuel (s + 1) r hh
      refine ⟨t, by omega, by omega, ht3, ?_⟩
      intro u hu1 hu2
      rcases Nat.eq_or_lt_of_le hu1 with rfl | hlt
      · exact hs
      · exact ht4 u hlt hu2

theorem startLoopFrom_none {α : Type} (h : Nat → Option α) :
    ∀ (fuel s : Nat), startLoopFrom h s fuel = none →
      ∀ t, s ≤ t → t < s + fuel → h t = none
  | 0, s => by intro _ t ht1 ht2; omega
  | fuel + 1, s => by
    simp only [startLoopFrom]
    cases hs : h s with
    | some r' => intro hh; cases hh
    | none =>
      intro hh t ht1 ht2
      rcases Nat.eq_or_lt_of_le ht1 with rfl | hlt
      · exact hs
      · exact startLoopFrom_none h fuel (s + 1) hh t hlt (by omega)

theorem sizeLoop_some {α : Type} (g : Nat → Option α) :
    ∀ (n : Nat) (r : α), sizeLoop g n = some r →
      ∃ s, 1 ≤ s ∧ s ≤ n ∧ g s = some r ∧
        ∀ s', s < s' → s' ≤ n → g s' = none
  | 0, r => by intro hh; cases hh
  | n + 1, r => by
    simp only [sizeLoop]
    cases hg : g (n + 1) with
    | some r' =>
      intro hh
      cases hh
      exact ⟨n + 1, by omega, Nat.le_refl _, hg, fun s' h1 h2 => by omega⟩
    | none =>
      intro hh
      obtain ⟨s, hs1, hs2, hs3, hs4⟩ := sizeLoop_some g n r hh
      refine ⟨s, hs1, by omega, hs3, ?_⟩
      intro s' h1 h2
      rcases Nat.eq_or_lt_of_le h2 with rfl | hlt
      · exact hg
      · exact hs4 s' h1 (by omega)

theorem sizeLoop_none {α : Type} (g : Nat → Option α) :
    ∀ (n : Nat), sizeLoop g n = none → ∀ s, 1 ≤ s → s ≤ n → g s = none
  | 0 => by intro _ s h1 h2; omega
  | n + 1 => by
    simp only [sizeLoop]
    cases hg : g (n + 1) with
    | some r' => intro hh; cases hh
    | none =>
      intro hh s h1 h2
      rcases Nat.eq_or_lt_of_le h2 with rfl | hlt
      · exact hg
      · exact sizeLoop_none g n hh s h1 (by omega)

/-! ### Slice lemmas -/

theorem sliceChars_length (s : List Char) (low high : Nat)
    (h1 : low ≤ high) (h2 : high ≤ s.length) :
    (sliceChars s low high).length = high - low := by
  simp only [sliceChars, List.length_take, List.length_drop]
  omega

theorem sliceChars_self (s : List Char) (a : Nat) : sliceChars s a a = [] := by
  simp [sliceChars]

theorem sliceChars_drop (s : List Char) (low high p : Nat) :
    (sliceChars s low high).drop p = sliceChars s (low + p) high := by
  simp only [sliceChars, List.drop_take, List.drop_drop]
  have h1 : high - low - p = high - (low + p) := by omega
  rw [h1]

theorem sliceChars_take (s : List Char) (a high k : Nat) (h : a + k ≤ high) :
    (sliceChars s a high).take k = sliceChars s a (a + k) := by
  simp only [sliceChars, List.take_take]
  congr 1
  omega

/-- Occurrence characterization: a string of length `k ≥ 1` is a prefix of
the sub-window of `longer` starting at relative position `p` exactly when
it is the slice `longer[low2+p .. low2+p+k)` and that slice fits in the
window. -/
theorem occurs_iff (longer : List Char) (low2 high2 p k : Nat)
    (h4 : high2 ≤ longer.length) (hk : 1 ≤ k)
    (sub : List Char) (hsub : sub.length = k) :
    sub.isPrefixOf ((sliceChars longer low2 high2).drop p) = true ↔
      (low2 + p + k ≤ high2 ∧ sliceChars longer (low2 + p) (low2 + p + k) = sub) := by
  rw [sliceChars_drop, isPrefixOf_char_iff, hsub]
  have hlen : (sliceChars longer (low2 + p) high2).length =
      high2 - (low2 + p) := by
    simp only [sliceChars, List.length_take, List.length_drop]
    omega
  rw [hlen]
  constructor
  · rintro ⟨htake, hle⟩
    have hfit : low2 + p + k ≤ high2 := by omega
    refine ⟨hfit, ?_⟩
    rw [← sliceChars_take longer (low2 + p) high2 k hfit]
    exact htake
  · rintro ⟨hfit, hslice⟩
    refine ⟨?_, by omega⟩
    rw [sliceChars_take longer (low2 + p) high2 k hfit]
    exact hslice

/-! ### Correctness of `find_longest_match` -/

theorem flm_def (shorter longer : List Char) (low1 high1 low2 high2 : Nat) :
    find_longest_match shorter longer low1 high1 low2 high2 =
      match sizeLoop (fun size =>
          startLoopFrom (flmTry shorter (sliceChars longer low2 high2) low1 low2 size)
            0 (high1 - low1 - size + 1)) (high1 - low1) with
      | some r => r
      | none => (low1, low2, 0) := rfl

theorem flmTry_eq_some {shorter longsub : List Char} {low1 low2 size start : Nat}
    {r : Nat × Nat × Nat}
    (h : flmTry shorter longsub low1 low2 size start = some r) :
    ∃ p, strFind (sliceChars shorter (low1 + start) (low1 + start + size))
        longsub = some p ∧
      r = (low1 + start, low2 + p,
        (sliceChars shorter (low1 + start) (low1 + start + size)).length) := by
  simp only [flmTry, Option.map_eq_some'] at h
  obtain ⟨p, hp, rfl⟩ := h
  exact ⟨p, hp, rfl⟩

/-- Completeness of the inner probe: a genuine common substring of length
`k ≥ 1` at `(i, j)` makes `flmTry` succeed at size `k`, start `i - low1`. -/
theorem flmTry_ne_none_of_candidate {shorter longer : List Char}
    {low1 high1 low2 high2 : Nat}
    (h2 : high1 ≤ shorter.length) (h4 : high2 ≤ longer.length)
    {i j k : Nat} (hk : 1 ≤ k)
    (hi1 : low1 ≤ i) (hi2 : i + k ≤ high1) (hj1 : low2 ≤ j) (hj2 : j + k ≤ high2)
    (heq : sliceChars shorter i (i + k) = sliceChars longer j (j + k)) :
    flmTry shorter (sliceChars longer low2 high2) low1 low2 k (i - low1) ≠ none := by
  have hstart : low1 + (i - low1) = i := by omega
  simp only [flmTry, hstart, Option.map_eq_none', ne_eq]
  intro hnone
  have hsublen : (sliceChars shorter i (i + k)).length = k := by
    rw [sliceChars_length shorter i (i + k) (by omega) (by omega)]
    omega
  have hocc : (sliceChars shorter i (i + k)).isPrefixOf
      ((sliceChars longer low2 high2).drop (j - low2)) = true := by
    rw [occurs_iff longer low2 high2 (j - low2) k h4 hk _ hsublen]
    have hj : low2 + (j - low2) = j := by omega
    rw [hj]
    exact ⟨hj2, heq.symm⟩
  rw [strFind_none _ _ hnone (j - low2)] at hocc
  cases hocc

/-- Master correctness lemma for `find_longest_match` on a valid window:
the result is a common substring inside the window, the zero-length result
is anchored at the window start, and the result is at least as long as any
common substring in the window, with the source's tie-breaking (smallest
`i`, then smallest `j`). -/
theorem flm_master (shorter longer : List Char) (low1 high1 low2 high2 : Nat)
    (h1 : low1 ≤ high1) (h2 : high1 ≤ shorter.length)
    (h3 : low2 ≤ high2) (h4 : high2 ≤ longer.length) :
    ∀ ri rj rk, find_longest_match shorter longer low1 high1 low2 high2 = (ri, rj, rk) →
      (low1 ≤ ri ∧ ri + rk ≤ high1 ∧ low2 ≤ rj ∧ rj + rk ≤ high2) ∧
      sliceChars shorter ri (ri + rk) = sliceChars longer rj (rj + rk) ∧
      (rk = 0 → ri = low1 ∧ rj = low2) ∧
      (∀ i j k, low1 ≤ i → i + k ≤ high1 → low2 ≤ j → j + k ≤ high2 →
        sliceChars shorter i (i + k) = sliceChars longer j (j + k) →
        k ≤ rk ∧ (k = rk → ri ≤ i) ∧ (k = rk → i = ri → rj ≤ j)) := by
  intro ri rj rk hr
  rw [flm_def] at hr
  cases hE : sizeLoop (fun size =>
      startLoopFrom (flmTry shorter (sliceChars longer low2 high2) low1 low2 size)
        0 (high1 - low1 - size + 1)) (high1 - low1) with
  | none =>
    rw [hE] at hr
    simp only at hr
    obtain ⟨rfl, rfl, rfl⟩ : low1 = ri ∧ low2 = rj ∧ 0 = rk := by
      have := hr
      simp only [Prod.mk.injEq] at this
      exact ⟨this.1, this.2.1, this.2.2⟩
    refine ⟨by omega, by simp [sliceChars_self], fun _ => ⟨rfl, rfl⟩, ?_⟩
    intro i j k hi1 hi2 hj1 hj2 heq
    by_cases hk : k = 0
    · subst hk
      exact ⟨Nat.le_refl 0, fun _ => hi1, fun _ _ => hj1⟩
    · exfalso
      have hk1 : 1 ≤ k := by omega
      have hnone := sizeLoop_none _ _ hE k hk1 (by omega)
      have hnone2 := startLoopFrom_none _ _ _ hnone (i - low1) (by omega) (by omega)
      exact flmTry_ne_none_of_candidate h2 h4 hk1 hi1 hi2 hj1 hj2 heq hnone2
  | some r0 =>
    rw [hE] at hr
    simp only at hr
    subst hr
    obtain ⟨size, hs1, hs2, hs3, hs4⟩ := sizeLoop_some _ _ _ hE
    obtain ⟨start, ht1, ht2, ht3, ht4⟩ := startLoopFrom_some _ _ _ _ hs3
    obtain ⟨p, hp, hrEq⟩ := flmTry_eq_some ht3
    have hstart : start ≤ high1 - low1 - size := by omega
    have hfit : low1 + start + size ≤ high1 := by omega
    have hsublen :
        (sliceChars shorter (low1 + start) (low1 + start + size)).length = size := by
      rw [sliceChars_length shorter _ _ (by omega) (by omega)]
      omega
    rw [hsublen] at hrEq
    obtain ⟨rfl, rfl, rfl⟩ : ri = low1 + start ∧ rj = low2 + p ∧ rk = size := by
      simp only [Prod.mk.injEq] at hrEq
      exact ⟨hrEq.1, hrEq.2.1, hrEq.2.2⟩
    obtain ⟨hocc, hmin⟩ := strFind_some _ _ _ hp
    rw [occurs_iff longer low2 high2 p rk h4 hs1 _ hsublen] at hocc
    obtain ⟨hpfit, hpslice⟩ := hocc
    refine ⟨⟨by omega, by omega, by omega, by omega⟩, hpslice.symm, by omega, ?_⟩
    intro i j k hi1 hi2 hj1 hj2 heq
    have hkle : k ≤ rk := by
      by_contra hgt
      have hk1 : 1 ≤ k := by omega
      have hnone := hs4 k (by omega) (by omega)
      have hnone2 := startLoopFrom_none _ _ _ hnone (i - low1) (by omega) (by omega)
      exact flmTry_ne_none_of_candidate h2 h4 hk1 hi1 hi2 hj1 hj2 heq hnone2
    refine ⟨hkle, ?_, ?_⟩
    · intro hkeq
      by_contra hlt
      push_neg at hlt
      have hlt' : i - low1 < start := by omega
      have hnone := ht4 (i - low1) (by omega) hlt'
      rw [← hkeq] at hnone
      exact flmTry_ne_none_of_candidate h2 h4 (by omega) hi1 hi2 hj1 hj2 heq hnone
    · intro hkeq hieq
      have hocc2 : (sliceChars shorter (low1 + start) (low1 + start + rk)).isPrefixOf
          ((sliceChars longer low2 high2).drop (j - low2)) = true := by
        rw [occurs_iff longer low2 high2 (j - low2) rk h4 hs1 _ hsublen]
        have hj : low2 + (j - low2) = j := by omega
        rw [hj]
        refine ⟨by omega, ?_⟩
        rw [← hkeq, ← hieq]
        exact heq.symm
      by_contra hjlt
      push_neg at hjlt
      have hqlt : j - low2 < p := by omega
      rw [hmin (j - low2) hqlt] at hocc2
      cases hocc2

/-- Window bounds of a non-trivial match in the first sequence, with no
validity assumption on the window (needed to justify the loop fuel). -/
theorem flm_bounds_raw (shorter longer : List Char) (low1 high1 low2 high2 : Nat) :
    ∀ ri rj rk, find_longest_match shorter longer low1 high1 low2 high2 = (ri, rj, rk) →
      rk ≠ 0 → low1 ≤ ri ∧ ri + rk ≤ high1 := by
  intro ri rj rk hr hk
  rw [flm_def] at hr
  cases hE : sizeLoop (fun size =>
      startLoopFrom (flmTry shorter (sliceChars longer low2 high2) low1 low2 size)
        0 (high1 - low1 - size + 1)) (high1 - low1) with
  | none =>
    rw [hE] at hr
    simp only [Prod.mk.injEq] at hr
    omega
  | some r0 =>
    rw [hE] at hr
    simp only at hr
    subst hr
    obtain ⟨size, hs1, hs2, hs3, hs4⟩ := sizeLoop_some _ _ _ hE
    obtain ⟨start, ht1, ht2, ht3, ht4⟩ := startLoopFrom_some _ _ _ _ hs3
    obtain ⟨p, hp, hrEq⟩ := flmTry_eq_some ht3
    have hlen : (sliceChars shorter (low1 + start) (low1 + start + size)).length ≤ size := by
      simp only [sliceChars, List.length_take, List.length_drop]
      omega
    simp only [Prod.mk.injEq] at hrEq
    omega

/-! ### The worklist loop: fuel and invariants -/

theorem phi_nil : phi [] = 0 := rfl

theorem phi_cons (low1 high1 low2 high2 : Nat) (rest : List Win) :
    phi ((low1, high1, low2, high2) :: rest) = 1 + 2 * (high1 - low1) + phi rest := by
  simp [phi]

theorem phi_pos (w : Win) (rest : List Win) : 1 ≤ phi (w :: rest) := by
  obtain ⟨a, b, c, d⟩ := w
  rw [phi_cons]
  omega

/-- The two conditional pushes after a non-trivial match cost at most
`2 * (high1 - low1)` of potential. -/
theorem phi_step (low1 high1 low2 high2 : Nat) (rest : List Win) (i j k : Nat)
    (hk : 1 ≤ k) (hb1 : low1 ≤ i) (hb2 : i + k ≤ high1) :
    phi (if i + k < high1 ∧ j + k < high2 then
           (i + k, high1, j + k, high2) ::
             (if low1 < i ∧ low2 < j then (low1, i, low2, j) :: rest else rest)
         else (if low1 < i ∧ low2 < j then (low1, i, low2, j) :: rest else rest))
      ≤ 2 * (high1 - low1) + phi rest := by
  by_cases c2 : i + k < high1 ∧ j + k < high2 <;> by_cases c1 : low1 < i ∧ low2 < j
  · rw [if_pos c2, if_pos c1, phi_cons, phi_cons]; omega
  · rw [if_pos c2, if_neg c1, phi_cons]; omega
  · rw [if_neg c2, if_pos c1, phi_cons]; omega
  · rw [if_neg c2, if_neg c1]; omega

theorem gmbLoopF_fuel_irrel (shorter longer : List Char) :
    ∀ (f1 f2 : Nat) (q : List Win) (acc : List Blk),
      phi q ≤ f1 → phi q ≤ f2 →
      gmbLoopF shorter longer f1 q acc = gmbLoopF shorter longer f2 q acc := by
  intro f1
  induction f1 with
  | zero =>
    intro f2 q acc h1 h2
    cases q with
    | nil => cases f2 <;> rfl
    | cons w rest => exact absurd h1 (by have := phi_pos w rest; omega)
  | succ f1 ih =>
    intro f2 q acc h1 h2
    cases q with
    | nil => cases f2 <;> rfl
    | cons w rest =>
      obtain ⟨low1, high1, low2, high2⟩ := w
      cases f2 with
      | zero => exact absurd h2 (by have := phi_pos (low1, high1, low2, high2) rest; omega)
      | succ f2 =>
        rw [phi_cons] at h1 h2
        simp only [gmbLoopF]
        rcases hr : find_longest_match shorter longer low1 high1 low2 high2 with ⟨ri, rj, rk⟩
        dsimp only
        by_cases hk : rk ≠ 0
        · rw [if_pos hk, if_pos hk]
          have hb := flm_bounds_raw shorter longer low1 high1 low2 high2 ri rj rk hr hk
          have hphi := phi_step low1 high1 low2 high2 rest ri rj rk
            (by omega) hb.1 hb.2
          apply ih
          · omega
          · omega
        · rw [if_neg hk, if_neg hk]
          exact ih f2 rest acc (by omega) (by omega)

/-- The empty-queue equation of the worklist loop. -/
theorem gmbLoop_nil (shorter longer : List Char) (acc : List Blk) :
    gmbLoop shorter longer [] acc = acc := rfl

/-- The step equation of the worklist loop, exactly as in the source: pop
the top window, run `find_longest_match`; on `k = 0` drop it, otherwise
record the triple and push the before-window (if non-empty on both sides)
and then the after-window (if non-empty on both sides).  Together with
`gmbLoop_nil` this characterizes `gmbLoop` as the source's `while let`
loop, independently of the fuel used to define it. -/
theorem gmbLoop_cons (shorter longer : List Char)
    (low1 high1 low2 high2 : Nat) (rest : List Win) (acc : List Blk) :
    gmbLoop shorter longer ((low1, high1, low2, high2) :: rest) acc =
      (let r := find_longest_match shorter longer low1 high1 low2 high2
       if r.2.2 ≠ 0 then
         gmbLoop shorter longer
           (if r.1 + r.2.2 < high1 ∧ r.2.1 + r.2.2 < high2 then
              (r.1 + r.2.2, high1, r.2.1 + r.2.2, high2) ::
                (if low1 < r.1 ∧ low2 < r.2.1 then (low1, r.1, low2, r.2.1) :: rest
                 else rest)
            else
              (if low1 < r.1 ∧ low2 < r.2.1 then (low1, r.1, low2, r.2.1) :: rest
               else rest))
           (acc ++ [(r.1, r.2.1, r.2.2)])
       else gmbLoop shorter longer rest acc) := by
  show gmbLoopF shorter longer (phi ((low1, high1, low2, high2) :: rest)) _ acc = _
  have hphi : phi ((low1, high1, low2, high2) :: rest) =
      (2 * (high1 - low1) + phi rest) + 1 := by
    rw [phi_cons]
    omega
  rw [hphi]
  simp only [gmbLoopF]
  rcases hr : find_longest_match shorter longer low1 high1 low2 high2 with ⟨ri, rj, rk⟩
  dsimp only
  by_cases hk : rk ≠ 0
  · rw [if_pos hk, if_pos hk]
    apply gmbLoopF_fuel_irrel
    · have hb := flm_bounds_raw shorter longer low1 high1 low2 high2 ri rj rk hr hk
      have := phi_step low1 high1 low2 high2 rest ri rj rk (by omega) hb.1 hb.2
      omega
    · exact Nat.le_refl _
  · rw [if_neg hk, if_neg hk]
    apply gmbLoopF_fuel_irrel
    · omega
    · exact Nat.le_refl _

/-- Validity of a window `(l1, h1, l2, h2)` with respect to the two
sequence lengths. -/
def ValidWin (n1 n2 : Nat) (w : Win) : Prop :=
  w.1 ≤ w.2.1 ∧ w.2.1 ≤ n1 ∧ w.2.2.1 ≤ w.2.2.2 ∧ w.2.2.2 ≤ n2

/-- Two regions are compatible when one lies entirely before the other in
both sequences simultaneously. -/
def Compat (w x : Win) : Prop :=
  (w.2.1 ≤ x.1 ∧ w.2.2.2 ≤ x.2.2.1) ∨ (x.2.1 ≤ w.1 ∧ x.2.2.2 ≤ w.2.2.1)

/-- The region occupied by a match triple. -/
def blkWin (b : Blk) : Win := (b.1, b.1 + b.2.2, b.2.1, b.2.1 + b.2.2)

theorem compat_symm {w x : Win} (h : Compat w x) : Compat x w := by
  unfold Compat at *
  tauto

theorem compat_of_sub {w w' x : Win}
    (h1 : w.1 ≤ w'.1) (h2 : w'.2.1 ≤ w.2.1)
    (h3 : w.2.2.1 ≤ w'.2.2.1) (h4 : w'.2.2.2 ≤ w.2.2.2)
    (h : Compat w x) : Compat w' x := by
  unfold Compat at *
  omega

/-- Replacing a window in a pairwise-compatible collection by any
pairwise-compatible family of sub-regions preserves pairwise
compatibility. -/
theorem pairwise_replace {xs ys zs : List Win} {w : Win}
    (hp : List.Pairwise Compat (xs ++ w :: ys))
    (hz : ∀ z ∈ zs, ∀ x, Compat w x → Compat z x)
    (hzz : List.Pairwise Compat zs) :
    List.Pairwise Compat (xs ++ (zs ++ ys)) := by
  rw [List.pairwise_append] at hp ⊢
  obtain ⟨hxs, hwys, hcross⟩ := hp
  rw [List.pairwise_cons] at hwys
  obtain ⟨hwy, hys⟩ := hwys
  refine ⟨hxs, ?_, ?_⟩
  · rw [List.pairwise_append]
    refine ⟨hzz, hys, ?_⟩
    intro z hz' y hy
    exact hz z hz' y (hwy y hy)
  · intro a ha b hb
    rw [List.mem_append] at hb
    rcases hb with hb | hb
    · have haw := hcross a ha w (List.mem_cons_self w ys)
      exact compat_symm (hz b hb a (compat_symm haw))
    · exact hcross a ha b (List.mem_cons_of_mem w hb)

theorem pairwise_two {R : Win → Win → Prop} {a b : Win} (hab : R a b) :
    List.Pairwise R [a, b] := by
  refine List.Pairwise.cons ?_ (List.pairwise_singleton R b)
  intro x hx
  rw [List.mem_singleton] at hx
  subst hx
  exact hab

theorem pairwise_three {R : Win → Win → Prop} {a b c : Win}
    (hab : R a b) (hac : R a c) (hbc : R b c) : List.Pairwise R [a, b, c] := by
  refine List.Pairwise.cons ?_ (pairwise_two hbc)
  intro x hx
  rw [List.mem_cons, List.mem_singleton] at hx
  rcases hx with rfl | rfl
  · exact hab
  · exact hac

/-- Main invariant of the worklist loop: starting from pairwise-compatible
valid windows and already-recorded blocks, every block the loop returns is
non-trivial, lies inside the sequences, and the returned blocks are
pairwise compatible. -/
theorem gmbLoopF_invariant (shorter longer : List Char) :
    ∀ (fuel : Nat) (q : List Win) (acc : List Blk),
      phi q ≤ fuel →
      (∀ w ∈ q, ValidWin shorter.length longer.length w) →
      (∀ b ∈ acc, 1 ≤ b.2.2 ∧ ValidWin shorter.length longer.length (blkWin b)) →
      List.Pairwise Compat (acc.map blkWin ++ q) →
      (∀ b ∈ gmbLoopF shorter longer fuel q acc,
          1 ≤ b.2.2 ∧ ValidWin shorter.length longer.length (blkWin b)) ∧
      List.Pairwise Compat ((gmbLoopF shorter longer fuel q acc).map blkWin) := by
  intro fuel
  induction fuel with
  | zero =>
    intro q acc hf hq hacc hpw
    cases q with
    | nil =>
      simp only [gmbLoopF]
      refine ⟨hacc, ?_⟩
      simpa using hpw
    | cons w rest => exact absurd hf (by have := phi_pos w rest; omega)
  | succ fuel ih =>
    intro q acc hf hq hacc hpw
    cases q with
    | nil =>
      simp only [gmbLoopF]
      refine ⟨hacc, ?_⟩
      simpa using hpw
    | cons w rest =>
      obtain ⟨low1, high1, low2, high2⟩ := w
      rw [phi_cons] at hf
      have hwv := hq _ (List.mem_cons_self _ _)
      simp only [ValidWin] at hwv
      obtain ⟨hv1, hv2, hv3, hv4⟩ := hwv
      simp only [gmbLoopF]
      rcases hr : find_longest_match shorter longer low1 high1 low2 high2 with ⟨ri, rj, rk⟩
      dsimp only
      by_cases hk : rk ≠ 0
      · rw [if_pos hk]
        obtain ⟨hbounds, hslice, hanchor, hmax⟩ :=
          flm_master shorter longer low1 high1 low2 high2 hv1 hv2 hv3 hv4 ri rj rk hr
        have hM1 : low1 ≤ ri := hbounds.1
        have hM2 : ri + rk ≤ high1 := hbounds.2.1
        have hM3 : low2 ≤ rj := hbounds.2.2.1
        have hM4 : rj + rk ≤ high2 := hbounds.2.2.2
        have hsubM : ∀ x, Compat (low1, high1, low2, high2) x →
            Compat (blkWin (ri, rj, rk)) x := by
          intro x hx
          refine @compat_of_sub (low1, high1, low2, high2) (blkWin (ri, rj, rk)) x
            ?_ ?_ ?_ ?_ hx
          all_goals simp only [blkWin]; omega
        have hsubA : ∀ x, Compat (low1, high1, low2, high2) x →
            Compat (ri + rk, high1, rj + rk, high2) x := by
          intro x hx
          refine @compat_of_sub (low1, high1, low2, high2)
            (ri + rk, high1, rj + rk, high2) x ?_ ?_ ?_ ?_ hx
          all_goals dsimp only; omega
        have hsubB : ∀ x, Compat (low1, high1, low2, high2) x →
            Compat (low1, ri, low2, rj) x := by
          intro x hx
          refine @compat_of_sub (low1, high1, low2, high2) (low1, ri, low2, rj) x
            ?_ ?_ ?_ ?_ hx
          all_goals dsimp only; omega
        have hMA : Compat (blkWin (ri, rj, rk)) (ri + rk, high1, rj + rk, high2) := by
          simp only [Compat, blkWin]; omega
        have hMB : Compat (blkWin (ri, rj, rk)) (low1, ri, low2, rj) := by
          simp only [Compat, blkWin]; omega
        have hAB : Compat (ri + rk, high1, rj + rk, high2) (low1, ri, low2, rj) := by
          simp only [Compat]; omega
        have haccM : ∀ b ∈ acc ++ [(ri, rj, rk)],
            1 ≤ b.2.2 ∧ ValidWin shorter.length longer.length (blkWin b) := by
          intro b hb
          rw [List.mem_append] at hb
          rcases hb with hb | hb
          · exact hacc b hb
          · simp only [List.mem_singleton] at hb
            subst hb
            refine ⟨by show 1 ≤ rk; omega, ?_⟩
            simp only [ValidWin, blkWin]
            omega
        apply ih
        · have hphi := phi_step low1 high1 low2 high2 rest ri rj rk (by omega) hM1 hM2
          omega
        · intro w' hw'
          have hmem : w' = (ri + rk, high1, rj + rk, high2) ∨
              w' = (low1, ri, low2, rj) ∨ w' ∈ rest := by
            by_cases c2 : ri + rk < high1 ∧ rj + rk < high2
            · rw [if_pos c2] at hw'
              by_cases c1 : low1 < ri ∧ low2 < rj
              · rw [if_pos c1] at hw'
                simp only [List.mem_cons] at hw'
                tauto
              · rw [if_neg c1] at hw'
                simp only [List.mem_cons] at hw'
                tauto
            · rw [if_neg c2] at hw'
              by_cases c1 : low1 < ri ∧ low2 < rj
              · rw [if_pos c1] at hw'
                simp only [List.mem_cons] at hw'
                tauto
              · rw [if_neg c1] at hw'
                tauto
          rcases hmem with rfl | rfl | hm
          · simp only [ValidWin]
            omega
          · simp only [ValidWin]
            omega
          · exact hq w' (List.mem_cons_of_mem _ hm)
        · exact haccM
        · rw [List.map_append, List.append_assoc]
          have hzM : ∀ x, Compat (low1, high1, low2, high2) x →
              Compat (blkWin (ri, rj, rk)) x := hsubM
          by_cases c2 : ri + rk < high1 ∧ rj + rk < high2
          · rw [if_pos c2]
            by_cases c1 : low1 < ri ∧ low2 < rj
            · rw [if_pos c1]
              refine @pairwise_replace (acc.map blkWin) rest
                [blkWin (ri, rj, rk), (ri + rk, high1, rj + rk, high2),
                  (low1, ri, low2, rj)]
                (low1, high1, low2, high2) hpw ?_ (pairwise_three hMA hMB hAB)
              intro z hz x hx
              rw [List.mem_cons, List.mem_cons, List.mem_singleton] at hz
              rcases hz with rfl | rfl | rfl
              · exact hsubM x hx
              · exact hsubA x hx
              · exact hsubB x hx
            · rw [if_neg c1]
              refine @pairwise_replace (acc.map blkWin) rest
                [blkWin (ri, rj, rk), (ri + rk, high1, rj + rk, high2)]
                (low1, high1, low2, high2) hpw ?_ (pairwise_two hMA)
              intro z hz x hx
              rw [List.mem_cons, List.mem_singleton] at hz
              rcases hz with rfl | rfl
              · exact hsubM x hx
              · exact hsubA x hx
          · rw [if_neg c2]
            by_cases c1 : low1 < ri ∧ low2 < rj
            · rw [if_pos c1]
              refine @pairwise_replace (acc.map blkWin) rest
                [blkWin (ri, rj, rk), (low1, ri, low2, rj)]
                (low1, high1, low2, high2) hpw ?_ (pairwise_two hMB)
              intro z hz x hx
              rw [List.mem_cons, List.mem_singleton] at hz
              rcases hz with rfl | rfl
              · exact hsubM x hx
              · exact hsubB x hx
            · rw [if_neg c1]
              refine @pairwise_replace (acc.map blkWin) rest
                [blkWin (ri, rj, rk)]
                (low1, high1, low2, high2) hpw ?_ (List.pairwise_singleton _ _)
              intro z hz x hx
              rw [List.mem_singleton] at hz
              subst hz
              exact hsubM x hx
      · rw [if_neg hk]
        apply ih
        · omega
        · exact fun w' hw' => hq w' (List.mem_cons_of_mem _ hw')
        · exact hacc
        · exact List.Pairwise.sublist
            (List.Sublist.append_left (List.sublist_cons_self _ _) _) hpw

/-- Blocks collected by the worklist over the full sequences: each is
non-trivial and in range, and they are pairwise compatible. -/
theorem gmbLoop_spec (shorter longer : List Char) :
    (∀ b ∈ gmbLoop shorter longer [(0, shorter.length, 0, longer.length)] [],
        1 ≤ b.2.2 ∧ b.1 + b.2.2 ≤ shorter.length ∧ b.2.1 + b.2.2 ≤ longer.length) ∧
    List.Pairwise Compat
      ((gmbLoop shorter longer [(0, shorter.length, 0, longer.length)] []).map blkWin) := by
  have h := gmbLoopF_invariant shorter longer
    (phi [(0, shorter.length, 0, longer.length)])
    [(0, shorter.length, 0, longer.length)] [] (Nat.le_refl _)
    (by
      intro w hw
      rw [List.mem_singleton] at hw
      subst hw
      simp only [ValidWin]
      omega)
    (by intro b hb; cases hb)
    (by simp)
  refine ⟨?_, h.2⟩
  intro b hb
  obtain ⟨hk, hvw⟩ := h.1 b hb
  simp only [ValidWin, blkWin] at hvw
  exact ⟨hk, by omega, by omega⟩

/-- Block `b` lies entirely before block `b'` in both sequences. -/
def BlkBefore (x y : Blk) : Prop :=
  x.1 + x.2.2 ≤ y.1 ∧ x.2.1 + x.2.2 ≤ y.2.1

/-- Block `y` starts exactly where `x` ends in both sequences (the merge
condition of `get_matching_blocks`). -/
def BlkAdj (x y : Blk) : Prop :=
  x.1 + x.2.2 = y.1 ∧ x.2.1 + x.2.2 = y.2.1

/-- Strict separation: before, and not exactly adjacent. -/
def BlkStrict (x y : Blk) : Prop := BlkBefore x y ∧ ¬BlkAdj x y

/-- After sorting, compatible non-trivial blocks are in before-order. -/
theorem pairwise_before_of_sorted (l : List Blk)
    (hk : ∀ x ∈ l, 1 ≤ x.2.2)
    (hcomp : List.Pairwise Compat (l.map blkWin))
    (hsort : List.Pairwise tripleLE l) :
    List.Pairwise BlkBefore l := by
  rw [List.pairwise_map] at hcomp
  refine List.Pairwise.imp_of_mem ?_ (List.Pairwise.and hcomp hsort)
  intro x y hx hy hxy
  obtain ⟨hc, hle⟩ := hxy
  have hkx := hk x hx
  have hky := hk y hy
  simp only [Compat, blkWin] at hc
  simp only [tripleLE] at hle
  simp only [BlkBefore]
  omega

/-- Invariant of the adjacency-merging loop.  `(i1, j1, k1)` is the running
triple, `xs` the remaining sorted blocks, `acc` the emitted output. -/
theorem mergeLoop_spec (n1 n2 : Nat) :
    ∀ (xs : List Blk) (i1 j1 k1 : Nat) (acc : List Blk),
      List.Pairwise BlkBefore xs →
      (∀ x ∈ xs, 1 ≤ x.2.2 ∧ x.1 + x.2.2 ≤ n1 ∧ x.2.1 + x.2.2 ≤ n2) →
      (∀ x ∈ xs, i1 + k1 ≤ x.1 ∧ j1 + k1 ≤ x.2.1) →
      (k1 ≠ 0 → i1 + k1 ≤ n1 ∧ j1 + k1 ≤ n2) →
      (∀ y ∈ acc, (1 ≤ y.2.2 ∧ y.1 + y.2.2 ≤ n1 ∧ y.2.1 + y.2.2 ≤ n2) ∧
        (y.1 + y.2.2 ≤ i1 ∧ y.2.1 + y.2.2 ≤ j1 ∧
          ¬(y.1 + y.2.2 = i1 ∧ y.2.1 + y.2.2 = j1))) →
      List.Pairwise BlkStrict acc →
      (∀ y ∈ mergeLoop (i1, j1, k1) xs acc,
          1 ≤ y.2.2 ∧ y.1 + y.2.2 ≤ n1 ∧ y.2.1 + y.2.2 ≤ n2) ∧
      List.Pairwise BlkStrict (mergeLoop (i1, j1, k1) xs acc) := by
  intro xs
  induction xs with
  | nil =>
    intro i1 j1 k1 acc _ _ _ hfit1 hacc haccp
    simp only [mergeLoop]
    by_cases hk : k1 ≠ 0
    · rw [if_pos hk]
      constructor
      · intro y hy
        rw [List.mem_append] at hy
        rcases hy with hy | hy
        · exact (hacc y hy).1
        · rw [List.mem_singleton] at hy
          subst hy
          have := hfit1 hk
          exact ⟨by show 1 ≤ k1; omega, by dsimp only; omega, by dsimp only; omega⟩
      · rw [List.pairwise_append]
        refine ⟨haccp, List.pairwise_singleton _ _, ?_⟩
        intro y hy z hz
        rw [List.mem_singleton] at hz
        subst hz
        have hy' := (hacc y hy).2
        exact ⟨⟨hy'.1, hy'.2.1⟩, fun hadj => hy'.2.2 ⟨hadj.1, hadj.2⟩⟩
    · rw [if_neg hk]
      exact ⟨fun y hy => (hacc y hy).1, haccp⟩
  | cons x rest ih =>
    intro i1 j1 k1 acc hpw hfit hdom hfit1 hacc haccp
    obtain ⟨i2, j2, k2⟩ := x
    rw [List.pairwise_cons] at hpw
    obtain ⟨hxr, hrest⟩ := hpw
    have hxfit := hfit _ (List.mem_cons_self _ _)
    have hxdom := hdom _ (List.mem_cons_self _ _)
    dsimp only at hxfit hxdom
    simp only [mergeLoop]
    by_cases hadj : i1 + k1 = i2 ∧ j1 + k1 = j2
    · rw [if_pos hadj]
      apply ih
      · exact hrest
      · exact fun y hy => hfit y (List.mem_cons_of_mem _ hy)
      · intro y hy
        have := hxr y hy
        simp only [BlkBefore] at this
        omega
      · intro _
        dsimp only
        omega
      · intro y hy
        have h := hacc y hy
        exact ⟨h.1, h.2⟩
      · exact haccp
    · rw [if_neg hadj]
      apply ih
      · exact hrest
      · exact fun y hy => hfit y (List.mem_cons_of_mem _ hy)
      · intro y hy
        have := hxr y hy
        simp only [BlkBefore] at this
        omega
      · intro _
        dsimp only
        omega
      · intro y hy
        by_cases hk : k1 ≠ 0
        · rw [if_pos hk, List.mem_append] at hy
          rcases hy with hy | hy
          · have h := hacc y hy
            refine ⟨h.1, by omega, by omega, ?_⟩
            intro hc
            have h2 := h.2
            omega
          · rw [List.mem_singleton] at hy
            subst hy
            have hf1 := hfit1 hk
            refine ⟨⟨by show 1 ≤ k1; omega, by dsimp only; omega, by dsimp only; omega⟩,
              by dsimp only; omega, by dsimp only; omega, ?_⟩
            dsimp only
            intro hc
            exact hadj ⟨hc.1, hc.2⟩
        · rw [if_neg hk] at hy
          have h := hacc y hy
          have hk0 : k1 = 0 := by omega
          refine ⟨h.1, by omega, by omega, ?_⟩
          intro hc
          have h2 := h.2
          have h1 := (h.1).1
          omega
      · by_cases hk : k1 ≠ 0
        · rw [if_pos hk]
          rw [List.pairwise_append]
          refine ⟨haccp, List.pairwise_singleton _ _, ?_⟩
          intro y hy z hz
          rw [List.mem_singleton] at hz
          subst hz
          have hy' := (hacc y hy).2
          exact ⟨⟨hy'.1, hy'.2.1⟩, fun hadj2 => hy'.2.2 ⟨hadj2.1, hadj2.2⟩⟩
        · rw [if_neg hk]
          exact haccp

/-- Full invariants of `gmbCore`: sentinel last, all other blocks
non-trivial, non-overlapping in before-order, strictly ascending in both
coordinates, and no two consecutive non-sentinel blocks mergeable. -/
theorem gmbCore_invariants (shorter longer : List Char) :
    (gmbCore shorter longer).getLast? = some (shorter.length, longer.length, 0) ∧
    (∀ x ∈ (gmbCore shorter longer).dropLast, 1 ≤ x.2.2) ∧
    List.Pairwise BlkBefore (gmbCore shorter longer) ∧
    List.Pairwise (fun x y : Blk => x.1 < y.1 ∧ x.2.1 < y.2.1) (gmbCore shorter longer) ∧
    List.Chain' (fun x y => ¬BlkAdj x y) ((gmbCore shorter longer).dropLast) := by
  obtain ⟨hfit, hcomp⟩ := gmbLoop_spec shorter longer
  have hperm : (List.insertionSort tripleLE
      (gmbLoop shorter longer [(0, shorter.length, 0, longer.length)] [])).Perm
      (gmbLoop shorter longer [(0, shorter.length, 0, longer.length)] []) :=
    List.perm_insertionSort tripleLE _
  have hsortfit : ∀ x ∈ List.insertionSort tripleLE
      (gmbLoop shorter longer [(0, shorter.length, 0, longer.length)] []),
      1 ≤ x.2.2 ∧ x.1 + x.2.2 ≤ shorter.length ∧ x.2.1 + x.2.2 ≤ longer.length :=
    fun x hx => hfit x (hperm.mem_iff.mp hx)
  have hsortcomp : List.Pairwise Compat
      ((List.insertionSort tripleLE
        (gmbLoop shorter longer [(0, shorter.length, 0, longer.length)] [])).map blkWin) :=
    (List.Perm.pairwise_iff (fun h => compat_symm h) (hperm.map blkWin)).mpr hcomp
  have hsorted := List.sorted_insertionSort tripleLE
    (gmbLoop shorter longer [(0, shorter.length, 0, longer.length)] [])
  have hbefore := pairwise_before_of_sorted _
    (fun x hx => (hsortfit x hx).1) hsortcomp hsorted
  obtain ⟨hofit, hostrict⟩ := mergeLoop_spec shorter.length longer.length
    (List.insertionSort tripleLE
      (gmbLoop shorter longer [(0, shorter.length, 0, longer.length)] []))
    0 0 0 [] hbefore hsortfit
    (fun x _ => ⟨Nat.zero_le _, Nat.zero_le _⟩)
    (fun h => absurd rfl h)
    (fun y hy => absurd hy (List.not_mem_nil y))
    List.Pairwise.nil
  have hobefore : List.Pairwise BlkBefore
      (mergeLoop (0, 0, 0)
        (List.insertionSort tripleLE
          (gmbLoop shorter longer [(0, shorter.length, 0, longer.length)] [])) []) :=
    hostrict.imp (fun h => h.1)
  unfold gmbCore
  refine ⟨List.getLast?_concat _, ?_, ?_, ?_, ?_⟩
  · rw [List.dropLast_concat]
    exact fun x hx => (hofit x hx).1
  · rw [List.pairwise_append]
    refine ⟨hobefore, List.pairwise_singleton _ _, ?_⟩
    intro x hx y hy
    rw [List.mem_singleton] at hy
    subst hy
    have := hofit x hx
    show x.1 + x.2.2 ≤ shorter.length ∧ x.2.1 + x.2.2 ≤ longer.length
    omega
  · rw [List.pairwise_append]
    refine ⟨?_, List.pairwise_singleton _ _, ?_⟩
    · refine List.Pairwise.imp_of_mem ?_ (hostrict.and hobefore)
      intro x y hx _ hxy
      have hx1 := (hofit x hx).1
      obtain ⟨_, hby⟩ := hxy
      simp only [BlkBefore] at hby
      omega
    · intro x hx y hy
      rw [List.mem_singleton] at hy
      subst hy
      have := hofit x hx
      show x.1 < shorter.length ∧ x.2.1 < longer.length
      omega
  · rw [List.dropLast_concat]
    exact (hostrict.imp (fun h => h.2)).chain'

theorem swapBlk_swapBlk (x : Blk) : swapBlk (swapBlk x) = x := rfl

/-- The exact symmetry the code does satisfy: with different scalar
lengths, flipping the arguments exactly swaps `i` and `j` in every
triple. -/
theorem gmb_swap_of_length_ne (a b : List Char) (h : a.length ≠ b.length) :
    get_matching_blocks b a = (get_matching_blocks a b).map swapBlk := by
  unfold get_matching_blocks
  rcases Nat.lt_or_ge a.length b.length with hlt | hge
  · rw [if_pos (Nat.le_of_lt hlt),
      if_neg (show ¬b.length ≤ a.length by omega)]
  · rw [if_neg (show ¬a.length ≤ b.length by omega),
      if_pos (show b.length ≤ a.length by omega), List.map_map]
    exact (List.map_id'' (fun x => swapBlk_swapBlk x) _).symm

/-! ### Lemmas about the canonicalizer -/

theorem char_toNat_ofNat (n : Nat) (h : n < 55296) : (Char.ofNat n).toNat = n := by
  have hv : n.isValidChar := Or.inl h
  simp only [Char.ofNat, hv, dite_true, Char.ofNatAux, Char.toNat]
  rfl

theorem char_ne_of_toNat {c d : Char} (h : c.toNat ≠ d.toNat) : c ≠ d :=
  fun he => h (by rw [he])

theorem char_is_ascii_iff {c : Char} : char_is_ascii c = true ↔ c.toNat ≤ 127 := by
  unfold char_is_ascii
  exact decide_eq_true_iff

/-- A character that survives `full_process` with `force_ascii = true`
unchanged under every stage: ASCII, fixed by lowercasing, and either
alphanumeric or the space inserted by the substitution stage. -/
def GoodChar (c : Char) : Prop :=
  c.toNat ≤ 127 ∧ char_to_lowercase c = [c] ∧
    (char_is_alphanumeric c = true ∨ c = ' ')

theorem good_space : GoodChar ' ' :=
  ⟨by decide, by decide, Or.inr rfl⟩

theorem good_of_lower_ascii_alnum {d : Char} (hd : d.toNat ≤ 127)
    (hal : char_is_alphanumeric d = true) :
    ∀ c ∈ char_to_lowercase d, GoodChar c := by
  intro c hc
  have hran : (48 ≤ d.toNat ∧ d.toNat ≤ 57) ∨ (65 ≤ d.toNat ∧ d.toNat ≤ 90) ∨
      (97 ≤ d.toNat ∧ d.toNat ≤ 122) := by
    unfold char_is_alphanumeric at hal
    rw [if_pos hd] at hal
    exact of_decide_eq_true hal
  have hCd : 'Ç'.toNat = 199 := by decide
  have hId : 'İ'.toNat = 304 := by decide
  by_cases hup : 65 ≤ d.toNat ∧ d.toNat ≤ 90
  · unfold char_to_lowercase at hc
    rw [if_pos hup, List.mem_singleton] at hc
    subst hc
    have htn : (Char.ofNat (d.toNat + 32)).toNat = d.toNat + 32 :=
      char_toNat_ofNat _ (by omega)
    refine ⟨by omega, ?_, Or.inl ?_⟩
    · unfold char_to_lowercase
      rw [if_neg (by omega), if_neg (char_ne_of_toNat (by omega)),
        if_neg (char_ne_of_toNat (by omega))]
    · unfold char_is_alphanumeric
      rw [if_pos (by omega)]
      exact decide_eq_true (by omega)
  · have hlow : char_to_lowercase d = [d] := by
      unfold char_to_lowercase
      rw [if_neg hup, if_neg (char_ne_of_toNat (by omega)),
        if_neg (char_ne_of_toNat (by omega))]
    rw [hlow, List.mem_singleton] at hc
    subst hc
    exact ⟨hd, hlow, Or.inl hal⟩

theorem mem_str_trim {c : Char} {l : List Char} (h : c ∈ str_trim l) : c ∈ l := by
  unfold str_trim at h
  rw [List.mem_reverse] at h
  have h1 := (List.dropWhile_sublist char_is_whitespace).subset h
  rw [List.mem_reverse] at h1
  exact (List.dropWhile_sublist char_is_whitespace).subset h1

theorem mem_str_to_lowercase {c : Char} {l : List Char}
    (h : c ∈ str_to_lowercase l) : ∃ d ∈ l, c ∈ char_to_lowercase d := by
  unfold str_to_lowercase at h
  exact List.mem_flatMap.mp h

theorem flatMap_singleton_id (f : Char → List Char) :
    ∀ (l : List Char), (∀ c ∈ l, f c = [c]) → l.flatMap f = l
  | [], _ => rfl
  | c :: t, h => by
    rw [List.flatMap_cons, h c (List.mem_cons_self c t),
      flatMap_singleton_id f t (fun d hd => h d (List.mem_cons_of_mem c hd))]
    rfl

/-- Every character of `full_process s true` is a stable ASCII character. -/
theorem full_process_true_good (s : List Char) :
    ∀ c ∈ full_process s true, GoodChar c := by
  intro c hc
  simp only [full_process, if_true] at hc
  have hc1 := mem_str_trim hc
  obtain ⟨d, hd, hcd⟩ := mem_str_to_lowercase hc1
  rw [List.mem_map] at hd
  obtain ⟨e, he, rfl⟩ := hd
  rw [List.mem_filter] at he
  obtain ⟨_, hea⟩ := he
  by_cases hal : char_is_alphanumeric e = true
  · rw [if_pos hal] at hcd
    exact good_of_lower_ascii_alnum (char_is_ascii_iff.mp hea) hal c hcd
  · rw [if_neg hal] at hcd
    have : c = ' ' := by
      have hsp : char_to_lowercase ' ' = [' '] := by decide
      rw [hsp, List.mem_singleton] at hcd
      exact hcd
    subst this
    exact good_space

theorem dropWhile_head_not (p : Char → Bool) :
    ∀ (l : List Char) (c : Char), (l.dropWhile p).head? = some c → p c = false := by
  intro l
  induction l with
  | nil => intro c h; cases h
  | cons d t ih =>
    intro c h
    rw [List.dropWhile_cons] at h
    by_cases hp : p d = true
    · rw [if_pos hp] at h
      exact ih c h
    · rw [if_neg hp] at h
      simp only [List.head?_cons, Option.some.injEq] at h
      subst h
      exact Bool.eq_false_iff.mpr hp

theorem dropWhile_eq_self_of_head (p : Char → Bool) (l : List Char)
    (h : ∀ c, l.head? = some c → p c = false) : l.dropWhile p = l := by
  cases l with
  | nil => rfl
  | cons c t =>
    rw [List.dropWhile_cons, if_neg]
    rw [h c rfl]
    exact Bool.false_ne_true

theorem str_trim_idem (s : List Char) : str_trim (str_trim s) = str_trim s := by
  have hA : (str_trim s).dropWhile char_is_whitespace = str_trim s := by
    apply dropWhile_eq_self_of_head
    intro c hc
    have hpre : str_trim s <+: s.dropWhile char_is_whitespace := by
      rw [← List.reverse_suffix]
      unfold str_trim
      rw [List.reverse_reverse]
      exact List.dropWhile_suffix char_is_whitespace
    obtain ⟨r, hr⟩ := hpre
    apply dropWhile_head_not char_is_whitespace s
    rw [← hr]
    cases hx : str_trim s with
    | nil => rw [hx] at hc; cases hc
    | cons a t =>
      rw [hx] at hc
      simp only [List.head?_cons, Option.some.injEq] at hc
      subst hc
      rfl
  have hB : (str_trim s).reverse.dropWhile char_is_whitespace =
      (str_trim s).reverse := by
    apply dropWhile_eq_self_of_head
    intro c hc
    have hrr : (str_trim s).reverse =
        (s.dropWhile char_is_whitespace).reverse.dropWhile char_is_whitespace := by
      unfold str_trim
      rw [List.reverse_reverse]
    rw [hrr] at hc
    exact dropWhile_head_not char_is_whitespace _ c hc
  show (((str_trim s).dropWhile char_is_whitespace).reverse.dropWhile
    char_is_whitespace).reverse = str_trim s
  rw [hA, hB, List.reverse_reverse]

theorem str_trim_full_process (s : List Char) (f : Bool) :
    str_trim (full_process s f) = full_process s f := by
  simp only [full_process]
  exact str_trim_idem _

/-- Idempotence of `full_process` in the `force_ascii = true` mode: the
output is made of stable ASCII characters, so a second pass changes
nothing. -/
theorem full_process_true_idem (s : List Char) :
    full_process (full_process s true) true = full_process s true := by
  have hg := full_process_true_good s
  have h1 : (full_process s true).filter char_is_ascii = full_process s true :=
    List.filter_eq_self.mpr (fun c hc => char_is_ascii_iff.mpr (hg c hc).1)
  have h2 : (full_process s true).map
      (fun c => if char_is_alphanumeric c then c else ' ') = full_process s true := by
    have hcg : ∀ c ∈ full_process s true,
        (if char_is_alphanumeric c then c else ' ') = id c := by
      intro c hc
      rcases (hg c hc).2.2 with hal | hsp
      · simp only [id]
        rw [if_pos hal]
      · subst hsp
        simp only [id]
        by_cases h : char_is_alphanumeric ' ' = true
        · rw [if_pos h]
        · rw [if_neg h]
    rw [List.map_congr_left hcg, List.map_id]
  have h3 : str_to_lowercase (full_process s true) = full_process s true :=
    flatMap_singleton_id _ _ (fun c hc => (hg c hc).2.1)
  have hdef : full_process (full_process s true) true =
      str_trim (str_to_lowercase (((full_process s true).filter char_is_ascii).map
        (fun c => if char_is_alphanumeric c then c else ' '))) := rfl
  rw [hdef, h1, h2, h3]
  exact str_trim_full_process s true

/-! ### Claim theorems -/

/-- C1 (counterexample to the claim as stated): with the valid window
`low1 = 0, high1 = 1, low2 = 0, high2 = 0` on `"a"`/`"b"`,
`find_longest_match` returns `(0, 0, 0)`, whose `j` component is not in the
empty interval `[low2, high2) = [0, 0)` as the claim requires. -/
theorem claim1_counterexample :
    ((0 : Nat) ≤ 1 ∧ 1 ≤ (['a'] : List Char).length ∧
      (0 : Nat) ≤ 0 ∧ 0 ≤ (['b'] : List Char).length) ∧
    find_longest_match ['a'] ['b'] 0 1 0 0 = (0, 0, 0) ∧
    ¬((find_longest_match ['a'] ['b'] 0 1 0 0).2.1 < 0) := by decide

/-- C1 (amended): on a valid window, `find_longest_match` returns a common
substring within the window; the interval memberships `i ∈ [low1, high1)`
and `j ∈ [low2, high2)` hold whenever `k ≥ 1`; the `k = 0` result is
anchored at `(low1, low2)`; `k` is the largest achievable length; among
equal `k` the returned `i` is smallest, and among equal `(k, i)` the
returned `j` is smallest.  All offsets are scalar-value offsets. -/
theorem claim1_find_longest_match_correct (shorter longer : List Char)
    (low1 high1 low2 high2 : Nat)
    (h1 : low1 ≤ high1) (h2 : high1 ≤ shorter.length)
    (h3 : low2 ≤ high2) (h4 : high2 ≤ longer.length) :
    ∀ ri rj rk, find_longest_match shorter longer low1 high1 low2 high2 = (ri, rj, rk) →
      sliceChars shorter ri (ri + rk) = sliceChars longer rj (rj + rk) ∧
      (low1 ≤ ri ∧ ri + rk ≤ high1 ∧ low2 ≤ rj ∧ rj + rk ≤ high2) ∧
      (1 ≤ rk → low1 ≤ ri ∧ ri < high1 ∧ low2 ≤ rj ∧ rj < high2) ∧
      (rk = 0 → ri = low1 ∧ rj = low2) ∧
      (∀ i j k, low1 ≤ i → i + k ≤ high1 → low2 ≤ j → j + k ≤ high2 →
          sliceChars shorter i (i + k) = sliceChars longer j (j + k) →
          k ≤ rk ∧ (k = rk → ri ≤ i) ∧ (k = rk → i = ri → rj ≤ j)) := by
  intro ri rj rk hr
  obtain ⟨hb, hs, ha, hm⟩ :=
    flm_master shorter longer low1 high1 low2 high2 h1 h2 h3 h4 ri rj rk hr
  exact ⟨hs, hb, fun _ => ⟨hb.1, by omega, hb.2.2.1, by omega⟩, ha, hm⟩

/-- Witness for C1 at a concrete window. -/
theorem claim1_witness :
    ((0 : Nat) ≤ 4 ∧ 4 ≤ "abcd".toList.length ∧
      (0 : Nat) ≤ 5 ∧ 5 ≤ "abxcd".toList.length) ∧
    sliceChars "abcd".toList 0 (0 + 2) = sliceChars "abxcd".toList 0 (0 + 2) := by
  refine ⟨⟨by decide, by decide, by decide, by decide⟩, ?_⟩
  exact (claim1_find_longest_match_correct "abcd".toList "abxcd".toList 0 4 0 5
    (by decide) (by decide) (by decide) (by decide) 0 0 2 (by decide)).1

/-- C2: the block list returned by `get_matching_blocks` ends with the
sentinel `(|a|, |b|, 0)`, all other triples have positive length (so the
sentinel is the only zero-length triple), the triples are non-overlapping
(each ends in both sequences before the next starts) and strictly
ascending in both components simultaneously, and no two consecutive
non-sentinel triples are mergeable. -/
theorem claim2_block_invariants (a b : List Char) :
    (get_matching_blocks a b).getLast? = some (a.length, b.length, 0) ∧
    (∀ x ∈ (get_matching_blocks a b).dropLast, 1 ≤ x.2.2) ∧
    List.Pairwise (fun x y : Blk => x.1 + x.2.2 ≤ y.1 ∧ x.2.1 + x.2.2 ≤ y.2.1)
      (get_matching_blocks a b) ∧
    List.Pairwise (fun x y : Blk => x.1 < y.1 ∧ x.2.1 < y.2.1)
      (get_matching_blocks a b) ∧
    List.Chain' (fun x y : Blk => ¬(x.1 + x.2.2 = y.1 ∧ x.2.1 + x.2.2 = y.2.1))
      ((get_matching_blocks a b).dropLast) := by
  unfold get_matching_blocks
  by_cases hab : a.length ≤ b.length
  · rw [if_pos hab]
    obtain ⟨g1, g2, g3, g4, g5⟩ := gmbCore_invariants a b
    exact ⟨g1, g2, g3, g4, g5⟩
  · rw [if_neg hab]
    obtain ⟨g1, g2, g3, g4, g5⟩ := gmbCore_invariants b a
    refine ⟨?_, ?_, ?_, ?_, ?_⟩
    · rw [List.getLast?_map, g1]
      rfl
    · intro x hx
      rw [← List.map_dropLast] at hx
      obtain ⟨y, hy, rfl⟩ := List.mem_map.mp hx
      exact g2 y hy
    · rw [List.pairwise_map]
      exact g3.imp (fun h => ⟨h.2, h.1⟩)
    · rw [List.pairwise_map]
      exact g4.imp (fun h => ⟨h.2, h.1⟩)
    · rw [← List.map_dropLast, List.chain'_map]
      exact g5.imp (fun _ _ h hc => h ⟨hc.2, hc.1⟩)

/-- Witness for C2 at a concrete pair (its nested membership hypothesis
discharged at the first returned block). -/
theorem claim2_witness :
    (get_matching_blocks "abxcd".toList "abcd".toList).getLast? = some (5, 4, 0) ∧
    1 ≤ ((0, 0, 2) : Blk).2.2 := by
  have h := claim2_block_invariants "abxcd".toList "abcd".toList
  exact ⟨h.1, h.2.1 (0, 0, 2) (by decide)⟩

/-- C3: the three concrete block lists from the specification, with all
indices counted in Unicode scalar values. -/
theorem claim3_concrete_blocks :
    get_matching_blocks "abxcd".toList "abcd".toList =
      [(0, 0, 2), (3, 2, 2), (5, 4, 0)] ∧
    get_matching_blocks "abcd".toList "abxcd".toList =
      [(0, 0, 2), (2, 3, 2), (4, 5, 0)] ∧
    get_matching_blocks "chance".toList "スマホでchance".toList =
      [(0, 4, 6), (6, 10, 0)] := by decide

/-- C4 (counterexample to the claim as stated): for the equal-length pair
`"ab"`/`"ba"`, `get_matching_blocks "ba" "ab"` contains `(0, 1, 1)` while
the `i`/`j`-swap of `get_matching_blocks "ab" "ba"` contains `(1, 0, 1)`
instead — the two results are not swaps of each other, because the
tie-break always prefers the earliest start in whichever string plays the
role of `shorter`. -/
theorem claim4_counterexample :
    (0, 1, 1) ∈ get_matching_blocks "ba".toList "ab".toList ∧
    (1, 0, 1) ∉ get_matching_blocks "ab".toList "ba".toList := by decide

/-- C4 (amended): when the two strings have different scalar lengths,
`get_matching_blocks b a` is exactly `get_matching_blocks a b` with `i` and
`j` swapped in every triple (sentinel included); for equal lengths the
symmetry can fail. -/
theorem claim4_swap (a b : List Char) (h : a.length ≠ b.length) :
    get_matching_blocks b a = (get_matching_blocks a b).map swapBlk :=
  gmb_swap_of_length_ne a b h

/-- Witness for C4 at a concrete pair of different lengths. -/
theorem claim4_witness :
    "abxcd".toList.length ≠ "abcd".toList.length ∧
    get_matching_blocks "abcd".toList "abxcd".toList =
      (get_matching_blocks "abxcd".toList "abcd".toList).map swapBlk :=
  ⟨by decide, claim4_swap "abxcd".toList "abcd".toList (by decide)⟩

/-- C5 (counterexample to the claim as stated): normalization is not
idempotent for `ascii_only = false`: `full_process "İ" false` is
"i" followed by U+0307 (combining dot above) — Rust lowercases U+0130 to
that two-scalar sequence — and a second pass replaces the non-alphanumeric
combining mark by a space and trims it away. -/
theorem claim5_counterexample :
    full_process (full_process "İ".toList false) false ≠
      full_process "İ".toList false := by decide

/-- C5 (amended): normalization is idempotent for `ascii_only = true`. -/
theorem claim5_idempotent_ascii (s : List Char) :
    full_process (full_process s true) true = full_process s true :=
  full_process_true_idem s

/-- C6: the slicer's precondition violations are only checked by
`debug_assert!`.  With debug assertions compiled in, out-of-range offsets
panic; in a release build, the very same calls are masked: an overlarge
`high` silently returns the suffix from `low`, and `low = high` beyond the
end returns the empty string — contradicting the documented "Panics if
`low > high` or `high > string.len`". -/
theorem claim6_release_masks_violation :
    slice_utf8 true "abcde".toList 0 10 = none ∧
    slice_utf8 false "abcde".toList 0 10 = some "abcde".toList ∧
    slice_utf8 true "ab".toList 5 5 = none ∧
    slice_utf8 false "ab".toList 5 5 = some [] := by decide

/-- C7: under the documented preconditions `low ≤ high ≤` scalar length,
`slice_utf8` never panics (in either build mode) and returns exactly the
scalar values in `[low, high)`; `low = high` yields the empty string. -/
theorem claim7_slice_valid (dbga : Bool) (s : List Char) (low high : Nat)
    (h1 : low ≤ high) (h2 : high ≤ s.length) :
    slice_utf8 dbga s low high = some (sliceChars s low high) ∧
    (low = high → slice_utf8 dbga s low high = some []) := by
  have hmain : slice_utf8 dbga s low high = some (sliceChars s low high) := by
    simp only [slice_utf8]
    rw [if_neg (by rintro ⟨-, h⟩; omega)]
    by_cases he : low = high
    · rw [if_pos he, he, sliceChars_self]
    · rw [if_neg he, if_pos (show low < s.length by omega),
        if_pos (show low < high ∧ high ≤ s.length by omega)]
      rfl
  refine ⟨hmain, fun he => ?_⟩
  rw [hmain, he, sliceChars_self]

/-- Witness for C7: slicing `"y" + U+0306 + "es"` at scalar offsets
`[1, 4)` returns the combining mark followed by `"es"`. -/
theorem claim7_witness :
    ((1 : Nat) ≤ 4 ∧ 4 ≤ "y̆es".toList.length) ∧
    slice_utf8 true "y̆es".toList 1 4 = some ['̆', 'e', 's'] := by
  refine ⟨⟨by decide, by decide⟩, ?_⟩
  rw [(claim7_slice_valid true "y̆es".toList 1 4 (by decide) (by decide)).1]
  decide

/-- C8: the concrete normalization results, showing that the ASCII filter
runs before the non-alphanumeric-to-space substitution (removed non-ASCII
characters leave no space behind). -/
theorem claim8_concrete_normalize :
    full_process "a¬4ሴ2€耀".toList true = "a42".toList ∧
    full_process "a¬4ሴ2€耀".toList false = "a 4ሴ2 耀".toList ∧
    full_process "Ça va?".toList false = "ça va".toList ∧
    full_process "Ça va?".toList true = "a va".toList := by decide

/-- C9: when no common substring of length ≥ 1 exists in a valid window,
`find_longest_match` returns exactly `(low1, low2, 0)`; and
`validate_string` is `false` exactly on the empty string. -/
theorem claim9_no_match_and_validate (shorter longer : List Char)
    (low1 high1 low2 high2 : Nat)
    (h1 : low1 ≤ high1) (h2 : high1 ≤ shorter.length)
    (h3 : low2 ≤ high2) (h4 : high2 ≤ longer.length)
    (hno : ∀ i j k, 1 ≤ k → low1 ≤ i → i + k ≤ high1 → low2 ≤ j → j + k ≤ high2 →
      sliceChars shorter i (i + k) ≠ sliceChars longer j (j + k)) :
    find_longest_match shorter longer low1 high1 low2 high2 = (low1, low2, 0) ∧
    (∀ s : List Char, validate_string s = false ↔ s = []) := by
  constructor
  · rcases hE : find_longest_match shorter longer low1 high1 low2 high2 with ⟨ri, rj, rk⟩
    obtain ⟨hb, hs, ha, _⟩ :=
      flm_master shorter longer low1 high1 low2 high2 h1 h2 h3 h4 ri rj rk hE
    by_cases hk : rk = 0
    · obtain ⟨hri, hrj⟩ := ha hk
      rw [hri, hrj, hk]
    · exfalso
      exact hno ri rj rk (by omega) hb.1 hb.2.1 hb.2.2.1 hb.2.2.2 hs
  · intro s
    cases s <;> simp [validate_string]

/-- Witness for C9: `"a"` and `"b"` share no substring of length ≥ 1. -/
theorem claim9_witness :
    find_longest_match ['a'] ['b'] 0 1 0 1 = (0, 0, 0) ∧
    (validate_string [] = false ↔ ([] : List Char) = []) := by
  have h := claim9_no_match_and_validate ['a'] ['b'] 0 1 0 1
    (by decide) (by decide) (by decide) (by decide) ?_
  · exact ⟨h.1, h.2 []⟩
  · intro i j k hk hi1 hi2 hj1 hj2
    have hk1 : k = 1 := by omega
    have hi0 : i = 0 := by omega
    have hj0 : j = 0 := by omega
    subst hk1
    subst hi0
    subst hj0
    decide

/-- C10: the output of `full_process` with `force_ascii = true` consists
exclusively of ASCII characters. -/
theorem claim10_force_ascii_output (s : List Char) :
    (full_process s true).all char_is_ascii = true := by
  rw [List.all_eq_true]
  intro c hc
  exact char_is_ascii_iff.mpr (full_process_true_good s c hc).1


end Fuzzy
